import Mathlib

/-!
# Verification of the hybrid expense-categorization engine

Shallow embedding of `app/ai_categorizer.py` and of the category-resolution
logic of `app/routers/expenses.py`, together with proofs of the specified
properties.

Conventions of the embedding:
* text is `List Char` (the ASCII fragment of Python's `str` semantics:
  `\w` is letters, digits and underscore; `\s` is the six ASCII whitespace
  characters; `str.lower` is basic-latin lowercasing, exactly `Char.toLower`);
* Python floats are modelled by `ℚ` (every score is a sum of halves divided
  by a token count, so the arithmetic is exact);
* the external collaborators (the category store and the remote classifier)
  are oracle parameters: a store fetch is an `Except Unit` value (`.error`
  models a raised exception) and the remote model's raw reply is an
  `Option String` (`none` models an errored/timed-out call).
-/

/-- ASCII fragment of Python's regex class `\s` (also what `str.split()` and
`str.strip()` split/strip on). -/
def isSpaceChar (c : Char) : Bool :=
  c == ' ' || c == '\t' || c == '\n' || c == '\r' || c == '\x0b' || c == '\x0c'

/-- ASCII fragment of Python's regex class `\w`: letters, digits and the
underscore. -/
def isWordChar (c : Char) : Bool :=
  c.isAlphanum || c == '_'

/-- One character step of `_clean_text`'s `text.lower()` followed by
`re.sub(r'[^\w\s]', ' ', text)`: lowercase, then replace anything that is
neither a word character nor whitespace by a single space. -/
def lowerReplace (c : Char) : Char :=
  let d := c.toLower
  if isWordChar d || isSpaceChar d then d else ' '

/-- `re.sub(r'\s+', ' ', text)`: every maximal run of whitespace becomes one
single `' '`. -/
def collapseWs : List Char → List Char
  | [] => []
  | [c] => if isSpaceChar c then [' '] else [c]
  | c :: d :: cs =>
    if isSpaceChar c then
      if isSpaceChar d then collapseWs (d :: cs)
      else ' ' :: collapseWs (d :: cs)
    else c :: collapseWs (d :: cs)

/-- `str.strip()` from the left. -/
def stripLeft (l : List Char) : List Char := l.dropWhile (fun c => isSpaceChar c)

/-- `str.strip()` from the right. -/
def stripRight (l : List Char) : List Char :=
  (l.reverse.dropWhile (fun c => isSpaceChar c)).reverse

/-- `str.strip()`: drop whitespace from both ends. -/
def stripList (l : List Char) : List Char :=
  stripRight (stripLeft l)

/-- `ExpenseCategorizer._clean_text` (`app/ai_categorizer.py`): lowercase,
replace every character outside `\w` and `\s` by a space, collapse whitespace
runs, strip both ends. -/
def cleanList (s : List Char) : List Char :=
  stripList (collapseWs (s.map lowerReplace))

/-- Python's `str.split()` (no separator): the maximal whitespace-free
non-empty chunks, in order. -/
def words : List Char → List (List Char)
  | [] => []
  | c :: cs =>
    if isSpaceChar c then words cs
    else
      match cs with
      | [] => [[c]]
      | d :: _ =>
        if isSpaceChar d then [c] :: words cs
        else
          match words cs with
          | [] => [[c]]
          | w :: ws => (c :: w) :: ws

/-- Join a list of tokens with single spaces (`' '.join`). -/
def joinSp : List (List Char) → List Char
  | [] => []
  | [w] => w
  | w :: ws => w ++ ' ' :: joinSp ws

example : cleanList "  Hello, World! This is a TEST...  ".data
    = "hello world this is a test".data := by decide

example : words "  uber ride  to office ".data
    = ["uber".data, "ride".data, "to".data, "office".data] := by decide

example : cleanList "_".data = "_".data := by decide

/-- The static Keyword Table `ExpenseCategorizer.category_keywords`, in the
source's insertion order. -/
def categoryKeywords : List (String × List String) :=
  [("Food",
    ["food", "meal", "lunch", "dinner", "breakfast", "snack", "restaurant", "cafe", "coffee",
     "pizza", "burger", "sandwich", "vegetables", "fruits", "milk", "bread",
     "rice", "dal", "curry", "biryani", "dosa", "idli", "samosa", "tea", "juice",
     "swiggy", "zomato", "uber eats", "foodpanda", "dominos", "kfc", "mcdonalds",
     "hotel", "dhaba", "canteen", "mess", "tiffin", "paratha", "roti", "chapati"]),
   ("Grocery",
    ["grocery", "groceries", "supermarket", "market", "bazaar", "store", "shop",
     "reliance fresh", "big bazaar", "more", "dmart", "spencer", "nature basket",
     "chicken", "mutton", "lamb", "beef", "pork", "fish", "seafood", "prawns", "crab",
     "egg", "eggs", "paneer", "tofu", "protein",
     "apple", "banana", "orange", "mango", "grapes", "strawberry", "watermelon", "pineapple",
     "papaya", "guava", "kiwi", "pomegranate", "lemon", "lime", "coconut", "dates",
     "potato", "onion", "tomato", "carrot", "cabbage", "spinach", "broccoli", "cauliflower",
     "peas", "beans", "corn", "cucumber", "pepper", "chilli", "ginger", "garlic",
     "wheat", "flour", "oats", "quinoa", "barley", "pulses", "lentils", "chickpeas",
     "yogurt", "curd", "cheese", "butter", "cream", "ghee", "almond milk", "soy milk",
     "detergent", "soap", "shampoo", "toothpaste", "tissue", "toilet paper", "oil", "salt", "sugar", "spices"]),
   ("Transport",
    ["transport", "uber", "ola", "taxi", "cab", "bus", "train", "metro", "auto",
     "rickshaw", "fuel", "petrol", "diesel", "gas", "parking", "toll", "flight",
     "airport", "railway", "ticket", "booking", "travel", "commute", "vehicle",
     "bike", "car", "scooter", "motorcycle", "rapido", "bounce", "yulu"]),
   ("Entertainment",
    ["movie", "cinema", "theater", "concert", "show", "game", "gaming", "netflix",
     "prime", "hotstar", "spotify", "youtube", "subscription", "entertainment",
     "fun", "party", "club", "bar", "pub", "bowling", "sports", "gym", "fitness",
     "book", "magazine", "newspaper", "music", "album", "ticket", "event"]),
   ("Shopping",
    ["shopping", "clothes", "shirt", "pants", "dress", "shoes", "bag", "accessories",
     "amazon", "flipkart", "myntra", "ajio", "nykaa", "electronics", "mobile",
     "laptop", "computer", "headphones", "charger", "cable", "gadget", "appliance",
     "furniture", "home", "decoration", "gift", "present", "online", "store", "mall"]),
   ("Healthcare",
    ["doctor", "hospital", "clinic", "medicine", "pharmacy", "medical", "health",
     "checkup", "consultation", "treatment", "surgery", "dental", "dentist",
     "eye", "optician", "glasses", "test", "lab", "blood", "xray", "scan",
     "physiotherapy", "therapy", "massage", "wellness", "vitamins", "supplements"]),
   ("Utilities",
    ["electricity", "water", "gas", "internet", "wifi", "phone", "mobile", "postpaid",
     "prepaid", "recharge", "bill", "utility", "maintenance", "repair", "service",
     "cleaning", "laundry", "rent", "emi", "loan", "insurance", "bank", "charges",
     "fee", "subscription", "premium", "payment", "transfer"]),
   ("Education",
    ["education", "school", "college", "university", "course", "class", "tuition",
     "coaching", "training", "workshop", "seminar", "conference", "book", "notebook",
     "pen", "pencil", "stationery", "fees", "admission", "exam", "test", "study",
     "online course", "udemy", "coursera", "skill", "learning", "certificate"])]

/-- One keyword's contribution inside `_calculate_category_score`'s loop:
`+1.0` when the keyword occurs as a substring of the note, and `+0.5` (at most
once, because of the `break`) when some single word token contains it or is
contained in it. -/
def keywordPoints (note : List Char) (tokens : List (List Char)) (k : List Char) : ℚ :=
  (if k <:+: note then 1 else 0)
    + (if tokens.any (fun w => decide (k <:+: w) || decide (w <:+: k)) then 1/2 else 0)

/-- `ExpenseCategorizer._calculate_category_score`: look the category up in the
Keyword Table (returning `0.0` when absent), split the note on whitespace
(returning `0.0` on zero tokens), accumulate each keyword's points with a
`foldl` mirroring the source's loop, and divide by `max(total_words, 1)`. -/
def calculateCategoryScore (note : List Char) (categoryName : String) : ℚ :=
  match categoryKeywords.find? (fun p => p.1 == categoryName) with
  | none => 0
  | some entry =>
    let wordsInNote := words note
    if wordsInNote.length = 0 then 0
    else
      let score := entry.2.foldl (fun acc k =>
        let kc := k.data
        let acc' := if kc <:+: note then acc + 1 else acc
        if wordsInNote.any (fun w => decide (kc <:+: w) || decide (w <:+: kc)) then acc' + 1/2
        else acc') 0
      score / ((max wordsInNote.length 1 : ℕ) : ℚ)

/-- The same per-keyword contribution counted in integral half-points (`2`
for an exact substring hit, `1` for a partial token hit), used to make
concrete score computations kernel-evaluable. -/
def keywordHalfPoints (note : List Char) (tokens : List (List Char)) (k : List Char) : ℕ :=
  (if k <:+: note then 2 else 0)
    + (if tokens.any (fun w => decide (k <:+: w) || decide (w <:+: k)) then 1 else 0)

/-- Total half-points a category's keyword list earns against a note. -/
def categoryHalfPoints (note : List Char) (name : String) : ℕ :=
  match categoryKeywords.find? (fun p => p.1 == name) with
  | none => 0
  | some e => (e.2.map (fun k => keywordHalfPoints note (words note) k.data)).sum

theorem foldl_score_eq (note : List Char) (tokens : List (List Char)) (kws : List String)
    (acc : ℚ) :
    kws.foldl (fun acc k =>
        let kc := k.data
        let acc' := if kc <:+: note then acc + 1 else acc
        if tokens.any (fun w => decide (kc <:+: w) || decide (w <:+: kc)) then acc' + 1/2
        else acc') acc
      = acc + ((kws.map (fun k => keywordHalfPoints note tokens k.data)).sum : ℚ) / 2 := by
  induction kws generalizing acc with
  | nil => simp
  | cons k ks ih =>
    simp only [List.foldl_cons, List.map_cons, List.sum_cons, ih]
    by_cases h1 : k.data <:+: note <;>
      by_cases h2 : (tokens.any (fun w => decide (k.data <:+: w) || decide (w <:+: k.data))) = true
    all_goals simp only [keywordHalfPoints, h1, h2, if_true, if_false, ite_true, ite_false]
    all_goals push_cast
    all_goals ring

/-- Closed form used to evaluate the scorer on concrete inputs: the rational
score is the half-point count over `2 * max(token_count, 1)`. -/
theorem calculateCategoryScore_eq_halfPoints (note : List Char) (name : String)
    (h : (words note).length ≠ 0) :
    calculateCategoryScore note name
      = (categoryHalfPoints note name : ℚ) / ((2 * max (words note).length 1 : ℕ) : ℚ) := by
  unfold calculateCategoryScore categoryHalfPoints
  cases hf : categoryKeywords.find? (fun p => p.1 == name) with
  | none => simp
  | some e =>
    simp only [if_neg h]
    rw [foldl_score_eq]
    have hm : ((max (words note).length 1 : ℕ) : ℚ) ≠ 0 := by
      have : (0:ℕ) < max (words note).length 1 := by omega
      exact_mod_cast this.ne'
    push_cast
    field_simp

example : calculateCategoryScore (cleanList "lunch at restaurant".data) "Food" = 5/3 := by
  rw [calculateCategoryScore_eq_halfPoints _ _ (by decide)]
  rw [show categoryHalfPoints (cleanList "lunch at restaurant".data) "Food" = 10 from by decide]
  rw [show (2 * max (words (cleanList "lunch at restaurant".data)).length 1 : ℕ) = 6 from by decide]
  norm_num

example : calculateCategoryScore (cleanList "random text".data) "Food" = 0 := by
  rw [calculateCategoryScore_eq_halfPoints _ _ (by decide)]
  rw [show categoryHalfPoints (cleanList "random text".data) "Food" = 0 from by decide]
  norm_num

example : calculateCategoryScore (cleanList "lunch".data) "Sports" = 0 := by
  rfl

/-- Python dict construction `{k: v for k, v in pairs}` as an association
list: first-occurrence key order, last-wins values. -/
def dictOf {α : Type} : List (String × α) → List (String × α) :=
  List.foldl (fun acc kv =>
    if acc.any (fun p => p.1 == kv.1)
    then acc.map (fun p => if p.1 == kv.1 then (p.1, kv.2) else p)
    else acc ++ [kv]) []

/-- Python `d.get(k)` / `d[k]` on an association list built by `dictOf`. -/
def dGet {α : Type} (d : List (String × α)) (k : String) : Option α :=
  (d.find? (fun p => p.1 == k)).map Prod.snd

/-- Python's `str.strip()` on a `String`, using the embedding's whitespace
class. -/
def pyStrip (s : String) : String := ⟨stripList s.data⟩

/-- Python's `str.lower()` on a `String` (basic-latin lowering). -/
def pyLower (s : String) : String := ⟨s.data.map Char.toLower⟩

/-- `ExpenseCategorizer._categorize_with_openai` after the external call.
`rawReply = none` models a raised/timed-out call (the function's own
`except` converts it to `None`); `some raw` is the model's raw message text.
The body strips the reply, tries an exact membership test against
`available_categories`, then the first case-insensitive match, else `None`. -/
def categorizeWithOpenai (rawReply : Option String) (availableCategories : List String) :
    Option String :=
  match rawReply with
  | none => none
  | some raw =>
    let category := pyStrip raw
    if availableCategories.contains category then some category
    else
      match availableCategories.find? (fun cat => pyLower cat == pyLower category) with
      | some cat => some cat
      | none => none

/-- Python's `max(l, key=lambda x: x[1])` on a non-empty list: the first
element with maximal second component. -/
def maxBySnd : List (String × ℚ) → Option (String × ℚ)
  | [] => none
  | x :: xs => some (xs.foldl (fun b y => if b.2 < y.2 then y else b) x)

/-- `ExpenseCategorizer._categorize_with_keywords`: `userCategories` is the
name→id dict (as a `dictOf`-shaped association list). Scores every owned
category on the cleaned note, keeps positive scores in a dict keyed by the
category id, takes the max (first-encountered wins ties), and defaults to
`user_categories.get("Other")`. -/
def categorizeWithKeywords (note : List Char) (userCategories : List (String × String)) :
    Option String :=
  let cleanNote := cleanList note
  let categoryScores := dictOf (userCategories.filterMap (fun p =>
    let s := calculateCategoryScore cleanNote p.1
    if 0 < s then some (p.2, s) else none))
  match maxBySnd categoryScores with
  | some best => some best.1
  | none => dGet userCategories "Other"

/-- `ExpenseCategorizer.categorize_expense`. `fetch1` is the categories query
inside the `try` block, `fetch2` the one inside the top-level `except`
handler (`.error` models a raised store exception), `rawReply` the remote
model's reply. Mirrors the source: empty category set returns `None`; a
truthy validated remote label present in the dict short-circuits; otherwise
the keyword fallback runs; on a store error the whole sequence is retried
once with the keyword path only, bottoming out at `None`. -/
def categorizeExpense (note : List Char) (fetch1 fetch2 : Except Unit (List (String × String)))
    (rawReply : Option String) : Option String :=
  match fetch1 with
  | .ok cats =>
    if cats = [] then none
    else
      let userCategories := dictOf cats
      let categoryNames := userCategories.map Prod.fst
      match categorizeWithOpenai rawReply categoryNames with
      | some c =>
        if c ≠ "" ∧ userCategories.any (fun p => p.1 == c) then dGet userCategories c
        else categorizeWithKeywords note userCategories
      | none => categorizeWithKeywords note userCategories
  | .error _ =>
    match fetch2 with
    | .ok cats => if cats = [] then none else categorizeWithKeywords note (dictOf cats)
    | .error _ => none

/-- Python's `round` to nearest integer with ties to even (banker's
rounding). -/
def roundHalfEven (q : ℚ) : ℤ :=
  if Int.fract q < 1/2 then ⌊q⌋
  else if 1/2 < Int.fract q then ⌊q⌋ + 1
  else if ⌊q⌋ % 2 = 0 then ⌊q⌋ else ⌊q⌋ + 1

/-- Python's `round(x, 1)`: nearest multiple of `1/10`, ties to even. -/
def pyRound1 (q : ℚ) : ℚ := (roundHalfEven (10 * q) : ℚ) / 10

/-- The positively-scored categories of the Keyword Table against a cleaned
note, in table insertion order (the `category_scores` dict of
`get_category_suggestions`). -/
def positiveScores (cleanNote : List Char) : List (String × ℚ) :=
  categoryKeywords.filterMap (fun p =>
    let s := calculateCategoryScore cleanNote p.1
    if 0 < s then some (p.1, s) else none)

/-- `ExpenseCategorizer.get_category_suggestions`: clean the note, keep the
positively-scored categories, sort them descending by score with Python's
stable `sorted(..., reverse=True)` (insertion sort inserting before the first
element of no-greater score), take the first three, and report
`round(score*100, 1)` as the confidence. -/
def getCategorySuggestions (noteRaw : List Char) : List (String × ℚ) :=
  let cleanNote := cleanList noteRaw
  let sortedCategories := (positiveScores cleanNote).insertionSort (fun a b => b.2 ≤ a.2)
  (sortedCategories.take 3).map (fun p => (p.1, pyRound1 (100 * p.2)))

/-- Outcome of the expense-create endpoint, restricted to what the
category-resolution claims observe. -/
inductive CreateOutcome where
  | created (categoryId : String)
  | noSuitableCategory
  | categoryNotOwned
  | insertFailed
  deriving DecidableEq

/-- Python truthiness of an optional string (`if not category_id` is true for
both `None` and `""`). -/
def optTruthy : Option String → Bool
  | none => false
  | some s => !(s == "")

/-- The category-resolution logic of `create_expense`
(`app/routers/expenses.py`): an explicit truthy `category_id` wins; otherwise
the resolver result; otherwise the id of the user's literal `"Other"`
category (`otherLookup`, `none` when that query finds nothing — HTTP 400);
the chosen id must belong to the user (`ownedCategoryIds`) and the insert
must succeed. -/
def createExpense (explicitCategoryId resolverResult otherLookup : Option String)
    (ownedCategoryIds : List String) (insertOk : Bool) : CreateOutcome :=
  let chosen : Option String :=
    if optTruthy explicitCategoryId then explicitCategoryId
    else if optTruthy resolverResult then resolverResult
    else otherLookup
  match chosen with
  | none => .noSuitableCategory
  | some cid =>
    if ownedCategoryIds.contains cid then
      if insertOk then .created cid else .insertFailed
    else .categoryNotOwned

/-- The fields of an `ExpenseUpdate` payload (`None` = field absent). -/
structure ExpenseUpdatePayload where
  amount : Option ℚ
  note : Option String
  date : Option String
  categoryId : Option String

/-- The `update_data` dict built by `update_expense` (`None` = key absent). -/
structure UpdateData where
  amount : Option ℚ
  note : Option String
  date : Option String
  categoryId : Option String
  deriving DecidableEq

/-- A stored expense record, restricted to the updatable fields. -/
structure ExpenseRecord where
  amount : ℚ
  note : String
  date : String
  categoryId : String
  deriving DecidableEq

/-- `update_expense`'s construction of `update_data`: amount/note/date are
copied when present; a present note with no explicit `category_id` re-runs
resolution and stores the result only when truthy; an explicit `category_id`
is ownership-checked (`.error` models the HTTP 400) and always stored; an
empty dict is rejected (`.error`, the "No data provided" HTTP 400). -/
def buildUpdateData (p : ExpenseUpdatePayload) (resolverResult : Option String)
    (ownedCategoryIds : List String) : Except Unit UpdateData :=
  let u0 : UpdateData := ⟨none, none, none, none⟩
  let u1 := match p.amount with
    | some a => { u0 with amount := some a }
    | none => u0
  let u2 := match p.note with
    | some n =>
      let withNote := { u1 with note := some n }
      match p.categoryId with
      | none =>
        if optTruthy resolverResult then { withNote with categoryId := resolverResult }
        else withNote
      | some _ => withNote
    | none => u1
  let u3 := match p.date with
    | some d => { u2 with date := some d }
    | none => u2
  match p.categoryId with
  | some cid =>
    if ownedCategoryIds.contains cid then .ok { u3 with categoryId := some cid }
    else .error ()
  | none => if u3 = ⟨none, none, none, none⟩ then .error () else .ok u3

/-- The store's `update` semantics: exactly the keys present in `update_data`
are overwritten. -/
def applyUpdateData (e : ExpenseRecord) (u : UpdateData) : ExpenseRecord :=
  { amount := u.amount.getD e.amount
    note := u.note.getD e.note
    date := u.date.getD e.date
    categoryId := u.categoryId.getD e.categoryId }

theorem charToNat_ofNat {n : ℕ} (h : n < 55296) : (Char.ofNat n).toNat = n := by
  have hv : n.isValidChar := Or.inl h
  rw [Char.ofNat, dif_pos hv]
  simp [Char.ofNatAux, Char.toNat, UInt32.toNat]

theorem toLower_toLower (c : Char) : c.toLower.toLower = c.toLower := by
  unfold Char.toLower
  by_cases h : c.toNat ≥ 65 ∧ c.toNat ≤ 90
  · rw [if_pos h]
    have h1 : (Char.ofNat (c.toNat + 32)).toNat = c.toNat + 32 := charToNat_ofNat (by omega)
    rw [if_neg (by rw [h1]; omega)]
  · rw [if_neg h, if_neg h]

theorem lowerReplace_idem (c : Char) : lowerReplace (lowerReplace c) = lowerReplace c := by
  unfold lowerReplace
  by_cases h : (isWordChar c.toLower || isSpaceChar c.toLower) = true
  · rw [if_pos h]
    rw [toLower_toLower, if_pos h]
  · rw [if_neg h]
    decide

theorem words_cons_space {c : Char} (cs : List Char) (h : isSpaceChar c = true) :
    words (c :: cs) = words cs := by
  conv_lhs => rw [words.eq_def]
  simp [h]

theorem words_singleton {c : Char} (h : isSpaceChar c = false) : words [c] = [[c]] := by
  conv_lhs => rw [words.eq_def]
  simp [h]

theorem words_cons_cons_space {c d : Char} (cs : List Char) (hc : isSpaceChar c = false)
    (hd : isSpaceChar d = true) : words (c :: d :: cs) = [c] :: words (d :: cs) := by
  conv_lhs => rw [words.eq_def]
  simp [hc, hd]

theorem words_ne_nil {c : Char} (cs : List Char) (hc : isSpaceChar c = false) :
    words (c :: cs) ≠ [] := by
  conv_lhs => rw [words.eq_def]
  cases cs with
  | nil => simp [hc]
  | cons d cs' =>
    by_cases hd : isSpaceChar d = true
    · simp [hc, hd]
    · simp only [hc, hd]
      cases words (d :: cs') <;> simp

theorem words_cons_cons_nonspace {c d : Char} (cs : List Char) (hc : isSpaceChar c = false)
    (hd : isSpaceChar d = false) :
    ∃ w ws, words (d :: cs) = w :: ws ∧ words (c :: d :: cs) = (c :: w) :: ws := by
  obtain ⟨w, ws, hw⟩ : ∃ w ws, words (d :: cs) = w :: ws := by
    cases hws : words (d :: cs) with
    | nil => exact absurd hws (words_ne_nil cs hd)
    | cons w ws => exact ⟨w, ws, rfl⟩
  refine ⟨w, ws, hw, ?_⟩
  conv_lhs => rw [words.eq_def]
  simp [hc, hd, hw]

theorem words_all_spaces {l : List Char} (h : words l = []) :
    ∀ c ∈ l, isSpaceChar c = true := by
  induction l with
  | nil => simp
  | cons c cs ih =>
    intro x hx
    by_cases hc : isSpaceChar c = true
    · rw [words_cons_space cs hc] at h
      rcases List.mem_cons.mp hx with rfl | hx'
      · exact hc
      · exact ih h x hx'
    · exact absurd h (words_ne_nil cs (by simpa using hc))

theorem words_tokens {l : List Char} :
    ∀ w ∈ words l, w ≠ [] ∧ ∀ c ∈ w, isSpaceChar c = false := by
  induction l with
  | nil => simp [words]
  | cons c cs ih =>
    by_cases hc : isSpaceChar c = true
    · rw [words_cons_space cs hc]; exact ih
    · replace hc : isSpaceChar c = false := by simpa using hc
      cases cs with
      | nil =>
        rw [words_singleton hc]
        intro w hw
        simp only [List.mem_singleton] at hw
        subst hw
        exact ⟨by simp, by simpa using hc⟩
      | cons d cs' =>
        by_cases hd : isSpaceChar d = true
        · rw [words_cons_cons_space cs' hc hd]
          intro w hw
          rcases List.mem_cons.mp hw with rfl | hw'
          · exact ⟨by simp, by simpa using hc⟩
          · exact ih w hw'
        · replace hd : isSpaceChar d = false := by simpa using hd
          obtain ⟨w, ws, hws, heq⟩ := words_cons_cons_nonspace cs' hc hd
          rw [heq]
          intro x hx
          rcases List.mem_cons.mp hx with rfl | hx'
          · obtain ⟨hwne, hwsp⟩ := ih w (by rw [hws]; simp)
            refine ⟨by simp, ?_⟩
            intro y hy
            rcases List.mem_cons.mp hy with rfl | hy'
            · exact hc
            · exact hwsp y hy'
          · exact ih x (by rw [hws]; exact List.mem_cons_of_mem w hx')

/-- `[' ']` when the list starts with whitespace, else `[]`. -/
def leadMark : List Char → List Char
  | [] => []
  | c :: _ => if isSpaceChar c then [' '] else []

/-- `[' ']` when the list ends with whitespace and still has a word, else
`[]`. -/
def trailMark (l : List Char) : List Char :=
  if words l = [] then []
  else
    match l.getLast? with
    | none => []
    | some c => if isSpaceChar c then [' '] else []

theorem collapseWs_singleton (c : Char) :
    collapseWs [c] = if isSpaceChar c then [' '] else [c] := rfl

theorem collapseWs_cons_cons (c d : Char) (cs : List Char) :
    collapseWs (c :: d :: cs) =
      if isSpaceChar c then
        if isSpaceChar d then collapseWs (d :: cs) else ' ' :: collapseWs (d :: cs)
      else c :: collapseWs (d :: cs) := rfl

theorem leadMark_cons (c : Char) (cs : List Char) :
    leadMark (c :: cs) = if isSpaceChar c then [' '] else [] := rfl

theorem trailMark_eq (l : List Char) :
    trailMark l =
      if words l = [] then []
      else
        match l.getLast? with
        | none => []
        | some c => if isSpaceChar c then [' '] else [] := rfl

theorem trailMark_congr {l l' : List Char} (h1 : words l = words l')
    (h2 : l.getLast? = l'.getLast?) : trailMark l = trailMark l' := by
  rw [trailMark_eq, trailMark_eq, h1, h2]

theorem trailMark_congr_ne {l l' : List Char} (h1 : words l ≠ []) (h2 : words l' ≠ [])
    (h3 : l.getLast? = l'.getLast?) : trailMark l = trailMark l' := by
  rw [trailMark_eq, trailMark_eq, if_neg h1, if_neg h2, h3]

theorem joinSp_token_cons (c : Char) (w : List Char) (ws : List (List Char)) :
    joinSp ((c :: w) :: ws) = c :: joinSp (w :: ws) := by
  cases ws <;> rfl

theorem joinSp_cons_of_ne_nil (w : List Char) {ws : List (List Char)} (h : ws ≠ []) :
    joinSp (w :: ws) = w ++ ' ' :: joinSp ws := by
  cases ws with
  | nil => simp at h
  | cons v ws' => rfl

theorem getLast?_mem_of_ne_nil {l : List Char} (h : l ≠ []) :
    ∃ x, l.getLast? = some x ∧ x ∈ l := by
  induction l with
  | nil => simp at h
  | cons c cs ih =>
    cases cs with
    | nil => exact ⟨c, rfl, by simp⟩
    | cons d cs' =>
      obtain ⟨x, hx, hmem⟩ := ih (by simp)
      exact ⟨x, by rw [List.getLast?_cons_cons]; exact hx, List.mem_cons_of_mem c hmem⟩

theorem collapseWs_eq_marks (l : List Char) :
    collapseWs l = leadMark l ++ joinSp (words l) ++ trailMark l := by
  induction l with
  | nil => rfl
  | cons c cs ih =>
    cases cs with
    | nil =>
      by_cases hc : isSpaceChar c = true
      · rw [collapseWs_singleton, if_pos hc, leadMark_cons c [], if_pos hc,
          words_cons_space [] hc, trailMark_eq]
        simp [words, joinSp, hc]
      · replace hc : isSpaceChar c = false := by simpa using hc
        have hc' : ¬(isSpaceChar c = true) := by simp [hc]
        rw [collapseWs_singleton, if_neg hc', leadMark_cons c [], if_neg hc',
          words_singleton hc, trailMark_eq, words_singleton hc]
        simp [joinSp, hc]
    | cons d cs' =>
      have hlast : (c :: d :: cs').getLast? = (d :: cs').getLast? :=
        List.getLast?_cons_cons ..
      by_cases hc : isSpaceChar c = true
      · have hwl : words (c :: d :: cs') = words (d :: cs') := words_cons_space _ hc
        have htl : trailMark (c :: d :: cs') = trailMark (d :: cs') :=
          trailMark_congr hwl hlast
        by_cases hd : isSpaceChar d = true
        · rw [collapseWs_cons_cons, if_pos hc, if_pos hd, ih, hwl, htl,
            leadMark_cons c (d :: cs'), if_pos hc, leadMark_cons d cs', if_pos hd]
        · replace hd : isSpaceChar d = false := by simpa using hd
          have hd' : ¬(isSpaceChar d = true) := by simp [hd]
          rw [collapseWs_cons_cons, if_pos hc, if_neg hd', ih, hwl, htl,
            leadMark_cons c (d :: cs'), if_pos hc, leadMark_cons d cs', if_neg hd']
          simp
      · replace hc : isSpaceChar c = false := by simpa using hc
        have hc' : ¬(isSpaceChar c = true) := by simp [hc]
        rw [collapseWs_cons_cons, if_neg hc', ih, leadMark_cons c (d :: cs'), if_neg hc']
        by_cases hd : isSpaceChar d = true
        · have hwl : words (c :: d :: cs') = [c] :: words (d :: cs') :=
            words_cons_cons_space _ hc hd
          rw [hwl, leadMark_cons d cs', if_pos hd]
          cases hwd : words (d :: cs') with
          | nil =>
            obtain ⟨x, hx, hxmem⟩ := getLast?_mem_of_ne_nil (l := d :: cs') (by simp)
            have hxsp : isSpaceChar x = true := words_all_spaces hwd x hxmem
            have htl1 : trailMark (d :: cs') = [] := by rw [trailMark_eq, if_pos hwd]
            have htl2 : trailMark (c :: d :: cs') = [' '] := by
              rw [trailMark_eq, if_neg (by rw [hwl, hwd]; simp), hlast, hx]
              simp [hxsp]
            rw [htl1, htl2]
            simp [joinSp]
          | cons w ws =>
            have htl : trailMark (c :: d :: cs') = trailMark (d :: cs') :=
              trailMark_congr_ne (by rw [hwl, hwd]; simp) (by rw [hwd]; simp) hlast
            rw [htl, joinSp_cons_of_ne_nil [c] (List.cons_ne_nil w ws)]
            simp
        · replace hd : isSpaceChar d = false := by simpa using hd
          have hd' : ¬(isSpaceChar d = true) := by simp [hd]
          obtain ⟨w, ws, hwd, hwl⟩ := words_cons_cons_nonspace cs' hc hd
          have htl : trailMark (c :: d :: cs') = trailMark (d :: cs') :=
            trailMark_congr_ne (by rw [hwl]; simp) (by rw [hwd]; simp) hlast
          rw [hwl, leadMark_cons d cs', if_neg hd', htl, joinSp_token_cons, hwd]
          simp

theorem dropWhile_eq_self_of_all {p : Char → Bool} {l : List Char}
    (h : ∀ c ∈ l, p c = false) : l.dropWhile p = l := by
  cases l with
  | nil => rfl
  | cons c cs => rw [List.dropWhile_cons, if_neg (by simp [h c (by simp)])]

theorem dropWhile_append_left {p : Char → Bool} {X : List Char} (Y : List Char)
    (h : X.dropWhile p ≠ []) : (X ++ Y).dropWhile p = X.dropWhile p ++ Y := by
  induction X with
  | nil => simp at h
  | cons x xs ih =>
    by_cases hx : p x = true
    · rw [List.cons_append, List.dropWhile_cons, if_pos hx]
      rw [List.dropWhile_cons, if_pos hx] at h
      rw [List.dropWhile_cons, if_pos hx]
      exact ih h
    · rw [List.cons_append, List.dropWhile_cons, if_neg hx, List.dropWhile_cons, if_neg hx]
      simp

theorem stripRight_nil : stripRight [] = [] := rfl

theorem stripRight_eq_self_of_all {l : List Char}
    (h : ∀ c ∈ l, isSpaceChar c = false) : stripRight l = l := by
  unfold stripRight
  rw [dropWhile_eq_self_of_all (by intro c hc; exact h c (List.mem_reverse.mp hc))]
  exact l.reverse_reverse

theorem stripRight_append {A B : List Char} (h : stripRight B ≠ []) :
    stripRight (A ++ B) = A ++ stripRight B := by
  have hd : B.reverse.dropWhile (fun c => isSpaceChar c) ≠ [] := by
    intro hh
    apply h
    unfold stripRight
    rw [hh]
    rfl
  unfold stripRight
  rw [List.reverse_append, dropWhile_append_left _ hd, List.reverse_append,
    List.reverse_reverse]

theorem stripRight_append_space (X : List Char) : stripRight (X ++ [' ']) = stripRight X := by
  unfold stripRight
  rw [List.reverse_append]
  simp [List.dropWhile_cons, (by decide : isSpaceChar ' ' = true)]

theorem stripLeft_cons_space (X : List Char) : stripLeft (' ' :: X) = stripLeft X := by
  unfold stripLeft
  rw [List.dropWhile_cons]
  simp [(by decide : isSpaceChar ' ' = true)]

theorem joinSp_ne_nil {w : List Char} {ws : List (List Char)} (h : w ≠ []) :
    joinSp (w :: ws) ≠ [] := by
  cases ws with
  | nil => exact h
  | cons v ws' => simp [joinSp_cons_of_ne_nil w (List.cons_ne_nil v ws')]

theorem stripRight_joinSp {ts : List (List Char)}
    (h : ∀ w ∈ ts, w ≠ [] ∧ ∀ c ∈ w, isSpaceChar c = false) :
    stripRight (joinSp ts) = joinSp ts := by
  induction ts with
  | nil => rfl
  | cons w ws ih =>
    cases ws with
    | nil => exact stripRight_eq_self_of_all (h w (by simp)).2
    | cons v ws' =>
      rw [joinSp_cons_of_ne_nil w (List.cons_ne_nil v ws')]
      have hihne : stripRight (joinSp (v :: ws')) ≠ [] := by
        rw [ih (fun x hx => h x (List.mem_cons_of_mem w hx))]
        exact joinSp_ne_nil (h v (by simp)).1
      have h1 : stripRight (' ' :: joinSp (v :: ws')) = ' ' :: joinSp (v :: ws') := by
        have h2 := stripRight_append (A := [' ']) (B := joinSp (v :: ws')) hihne
        rw [ih (fun x hx => h x (List.mem_cons_of_mem w hx))] at h2
        simpa using h2
      have h1ne : stripRight (' ' :: joinSp (v :: ws')) ≠ [] := by
        rw [h1]; simp
      calc stripRight (w ++ ' ' :: joinSp (v :: ws'))
          = w ++ stripRight (' ' :: joinSp (v :: ws')) := stripRight_append h1ne
        _ = w ++ ' ' :: joinSp (v :: ws') := by rw [h1]

theorem stripLeft_joinSp {ts : List (List Char)}
    (h : ∀ w ∈ ts, w ≠ [] ∧ ∀ c ∈ w, isSpaceChar c = false) :
    stripLeft (joinSp ts) = joinSp ts := by
  cases ts with
  | nil => rfl
  | cons w ws =>
    obtain ⟨hne, hsp⟩ := h w (by simp)
    cases w with
    | nil => simp at hne
    | cons c w' =>
      rw [joinSp_token_cons]
      unfold stripLeft
      rw [List.dropWhile_cons, if_neg (by simp [hsp c (by simp)])]

theorem stripLeft_append {X : List Char} (Y : List Char) (h : stripLeft X ≠ []) :
    stripLeft (X ++ Y) = stripLeft X ++ Y :=
  dropWhile_append_left Y h

theorem leadMark_cases (m : List Char) : leadMark m = [] ∨ leadMark m = [' '] := by
  cases m with
  | nil => exact Or.inl rfl
  | cons c cs =>
    rw [leadMark_cons]
    by_cases hc : isSpaceChar c = true
    · rw [if_pos hc]; exact Or.inr rfl
    · rw [if_neg hc]; exact Or.inl rfl

theorem trailMark_cases (m : List Char) : trailMark m = [] ∨ trailMark m = [' '] := by
  rw [trailMark_eq]
  split
  · exact Or.inl rfl
  · split
    · exact Or.inl rfl
    · split
      · exact Or.inr rfl
      · exact Or.inl rfl

theorem stripList_marks {m : List Char} :
    stripList (leadMark m ++ joinSp (words m) ++ trailMark m) = joinSp (words m) := by
  unfold stripList
  cases hw : words m with
  | nil =>
    have ht : trailMark m = [] := by rw [trailMark_eq, if_pos hw]
    rw [ht]
    cases m with
    | nil => rfl
    | cons c cs =>
      by_cases hc : isSpaceChar c = true
      · rw [leadMark_cons, if_pos hc]
        show stripRight (stripLeft (' ' :: ([] ++ []))) = []
        rw [stripLeft_cons_space]
        rfl
      · exact absurd hw (words_ne_nil cs (by simpa using hc))
  | cons w ws =>
    have htok' : ∀ x ∈ w :: ws, x ≠ [] ∧ ∀ c ∈ x, isSpaceChar c = false := by
      rw [← hw]; exact words_tokens
    have hJne : joinSp (w :: ws) ≠ [] := joinSp_ne_nil (htok' w (by simp)).1
    have hSL : stripLeft (joinSp (w :: ws)) = joinSp (w :: ws) := stripLeft_joinSp htok'
    have hSR : stripRight (joinSp (w :: ws)) = joinSp (w :: ws) := stripRight_joinSp htok'
    have hmid : ∀ T, T = [] ∨ T = [' '] →
        stripRight (stripLeft (joinSp (w :: ws) ++ T)) = joinSp (w :: ws) := by
      rintro T (rfl | rfl)
      · rw [List.append_nil, hSL, hSR]
      · rw [stripLeft_append [' '] (by rw [hSL]; exact hJne), hSL,
          stripRight_append_space, hSR]
    rcases leadMark_cases m with hl | hl <;> rw [hl]
    · rw [List.nil_append]
      exact hmid _ (trailMark_cases m)
    · rw [List.singleton_append, List.cons_append, stripLeft_cons_space]
      exact hmid _ (trailMark_cases m)

/-- The central normal form: cleaning a string is the single-space join of
its whitespace-split tokens after per-character lowering/replacement. -/
theorem cleanList_eq_joinSp_words (s : List Char) :
    cleanList s = joinSp (words (s.map lowerReplace)) := by
  unfold cleanList
  rw [collapseWs_eq_marks]
  exact stripList_marks

theorem mem_joinSp {x : Char} {ts : List (List Char)} (hx : x ∈ joinSp ts) :
    x = ' ' ∨ ∃ w ∈ ts, x ∈ w := by
  induction ts with
  | nil => simp [joinSp] at hx
  | cons w ws ih =>
    cases ws with
    | nil => exact Or.inr ⟨w, by simp, hx⟩
    | cons v ws' =>
      rw [joinSp_cons_of_ne_nil w (List.cons_ne_nil v ws')] at hx
      rcases List.mem_append.mp hx with h | h
      · exact Or.inr ⟨w, by simp, h⟩
      · rcases List.mem_cons.mp h with rfl | h'
        · exact Or.inl rfl
        · rcases ih h' with h'' | ⟨u, hu, hxu⟩
          · exact Or.inl h''
          · exact Or.inr ⟨u, List.mem_cons_of_mem w hu, hxu⟩

theorem words_chars_mem {l : List Char} :
    ∀ w ∈ words l, ∀ c ∈ w, c ∈ l := by
  induction l with
  | nil => simp [words]
  | cons a cs ih =>
    by_cases ha : isSpaceChar a = true
    · rw [words_cons_space cs ha]
      intro w hw c hc
      exact List.mem_cons_of_mem a (ih w hw c hc)
    · replace ha : isSpaceChar a = false := by simpa using ha
      cases cs with
      | nil =>
        rw [words_singleton ha]
        intro w hw c hc
        simp only [List.mem_singleton] at hw
        subst hw
        simpa using hc
      | cons d cs' =>
        by_cases hd : isSpaceChar d = true
        · rw [words_cons_cons_space cs' ha hd]
          intro w hw c hc
          rcases List.mem_cons.mp hw with rfl | hw'
          · simp only [List.mem_singleton] at hc
            subst hc
            simp
          · exact List.mem_cons_of_mem a (ih w hw' c hc)
        · replace hd : isSpaceChar d = false := by simpa using hd
          obtain ⟨w0, ws0, hwd, hwl⟩ := words_cons_cons_nonspace cs' ha hd
          rw [hwl]
          intro w hw c hc
          rcases List.mem_cons.mp hw with rfl | hw'
          · rcases List.mem_cons.mp hc with rfl | hc'
            · simp
            · exact List.mem_cons_of_mem a (ih w0 (by rw [hwd]; simp) c hc')
          · exact List.mem_cons_of_mem a
              (ih w (by rw [hwd]; exact List.mem_cons_of_mem w0 hw') c hc)

theorem map_eq_self_of_mem {f : Char → Char} {l : List Char} (h : ∀ x ∈ l, f x = x) :
    l.map f = l := by
  induction l with
  | nil => rfl
  | cons a l ih => simp [h a (by simp), ih (fun x hx => h x (List.mem_cons_of_mem a hx))]

theorem words_self {w : List Char} (hne : w ≠ []) (hsp : ∀ c ∈ w, isSpaceChar c = false) :
    words w = [w] := by
  induction w with
  | nil => simp at hne
  | cons c w' ih =>
    cases w' with
    | nil => exact words_singleton (hsp c (by simp))
    | cons d w'' =>
      obtain ⟨w0, ws0, hwd, hwl⟩ := words_cons_cons_nonspace w'' (hsp c (by simp))
        (hsp d (by simp))
      have hih := ih (by simp) (fun x hx => hsp x (List.mem_cons_of_mem c hx))
      rw [hih] at hwd
      obtain ⟨rfl, rfl⟩ : w0 = d :: w'' ∧ ws0 = [] := by
        constructor <;> injection hwd <;> simp_all
      rw [hwl]

theorem words_append_space {w : List Char} (r : List Char) (hne : w ≠ [])
    (hsp : ∀ c ∈ w, isSpaceChar c = false) :
    words (w ++ ' ' :: r) = w :: words r := by
  induction w with
  | nil => simp at hne
  | cons c w' ih =>
    cases w' with
    | nil =>
      show words (c :: ' ' :: r) = [c] :: words r
      rw [words_cons_cons_space r (hsp c (by simp)) (by decide),
        words_cons_space r (by decide)]
    | cons d w'' =>
      have hih := ih (by simp) (fun x hx => hsp x (List.mem_cons_of_mem c hx))
      obtain ⟨w0, ws0, hwd, hwl⟩ := words_cons_cons_nonspace (w'' ++ ' ' :: r)
        (hsp c (by simp)) (hsp d (by simp))
      have hwd' : words (d :: (w'' ++ ' ' :: r)) = (d :: w'') :: words r := hih
      rw [hwd'] at hwd
      obtain ⟨rfl, rfl⟩ : w0 = d :: w'' ∧ ws0 = words r := by
        constructor <;> injection hwd <;> simp_all
      exact hwl

theorem words_joinSp {ts : List (List Char)}
    (h : ∀ w ∈ ts, w ≠ [] ∧ ∀ c ∈ w, isSpaceChar c = false) :
    words (joinSp ts) = ts := by
  induction ts with
  | nil => rfl
  | cons w ws ih =>
    cases ws with
    | nil => exact words_self (h w (by simp)).1 (h w (by simp)).2
    | cons v ws' =>
      rw [joinSp_cons_of_ne_nil w (List.cons_ne_nil v ws'),
        words_append_space _ (h w (by simp)).1 (h w (by simp)).2,
        ih (fun x hx => h x (List.mem_cons_of_mem w hx))]

/-- The amendment's per-character normalization step, written from the spec's
§4.1 sentence with the underscore added: after lowercasing, a character that
is not a letter, a digit, an underscore, or whitespace becomes a space. -/
def specReplaceChar (c : Char) : Char :=
  if c.isAlpha || c.isDigit || c == '_' || isSpaceChar c then c else ' '

/-- The normalizer as the spec's §4.1 sentence reads, amended to keep the
underscore as well: lowercase, replace the characters outside the kept
classes by spaces, and take the single-space join of the whitespace-split
tokens (which is what "collapse runs of whitespace and trim both ends"
produces). -/
def normalizeSpecAmended (x : List Char) : List Char :=
  joinSp (words ((x.map Char.toLower).map specReplaceChar))

/-- The normalizer exactly as the spec's §4.1 sentence reads (keeping only
letters, digits and whitespace — no underscore). -/
def normalizeSpecLiteral (x : List Char) : List Char :=
  stripList (collapseWs (x.map (fun c =>
    let d := c.toLower
    if d.isAlpha || d.isDigit || isSpaceChar d then d else ' ')))

theorem lowerReplace_eq_spec (c : Char) :
    lowerReplace c = specReplaceChar c.toLower := by
  unfold lowerReplace specReplaceChar isWordChar Char.isAlphanum
  cases hA : c.toLower.isAlpha <;> cases hD : c.toLower.isDigit <;>
    cases hU : (c.toLower == '_') <;> cases hS : isSpaceChar c.toLower <;>
    simp [hA, hD, hU, hS]

/-- **C9**: `normalize` (`_clean_text`) is idempotent on every input string;
as a total Lean function the embedding also shows it has no failure mode. -/
theorem clean_text_idempotent (x : List Char) : cleanList (cleanList x) = cleanList x := by
  rw [cleanList_eq_joinSp_words x,
    cleanList_eq_joinSp_words (joinSp (words (x.map lowerReplace)))]
  have hfix : (joinSp (words (x.map lowerReplace))).map lowerReplace
      = joinSp (words (x.map lowerReplace)) := by
    apply map_eq_self_of_mem
    intro c hc
    rcases mem_joinSp hc with rfl | ⟨w, hw, hcw⟩
    · rfl
    · have hcm : c ∈ x.map lowerReplace := words_chars_mem w hw c hcw
      obtain ⟨y, _, rfl⟩ := List.mem_map.mp hcm
      exact lowerReplace_idem y
  rw [hfix, words_joinSp words_tokens]

/-- **C6 (amended)**: `_clean_text` lowercases its input, replaces every
character that is not a letter, digit, underscore (the amendment — Python's
`\w` keeps it), or whitespace with a single space, collapses every whitespace
run to one space and trims both ends: it equals the spec-side normalizer with
the underscore added to the kept characters. -/
theorem clean_text_matches_amended_spec (x : List Char) :
    cleanList x = normalizeSpecAmended x := by
  rw [cleanList_eq_joinSp_words, normalizeSpecAmended, List.map_map]
  have hmap : x.map lowerReplace = x.map (specReplaceChar ∘ Char.toLower) := by
    induction x with
    | nil => rfl
    | cons c cs ih => simp only [List.map_cons, ih, lowerReplace_eq_spec c, Function.comp]
  rw [hmap]

/-- **C6 counterexample**: on the input `"_"` the code keeps the underscore
(the regex class `\w` includes it), while the claim's sentence demands
replacing it with a space and trimming, producing the empty string. -/
theorem clean_text_spec_counterexample :
    cleanList "_".data = "_".data ∧ normalizeSpecLiteral "_".data = [] ∧
      cleanList "_".data ≠ normalizeSpecLiteral "_".data := by decide

/-- The per-keyword contribution exactly as the spec words it: `1.0` when the
keyword occurs as a substring of the cleaned text, plus `0.5` — at most once
per keyword — when some single word token contains the keyword as a substring
or is contained in it. -/
def specKeywordPoints (cleanedText : List Char) (tokens : List (List Char))
    (k : List Char) : ℚ :=
  (if k <:+: cleanedText then 1 else 0)
    + (if ∃ w ∈ tokens, k <:+: w ∨ w <:+: k then 1/2 else 0)

theorem any_partial_iff (tokens : List (List Char)) (k : List Char) :
    (tokens.any (fun w => decide (k <:+: w) || decide (w <:+: k)) = true)
      ↔ ∃ w ∈ tokens, k <:+: w ∨ w <:+: k := by
  simp [List.any_eq_true]

theorem specKeywordPoints_eq_half (note : List Char) (tokens : List (List Char))
    (k : List Char) :
    specKeywordPoints note tokens k = (keywordHalfPoints note tokens k : ℚ) / 2 := by
  unfold specKeywordPoints keywordHalfPoints
  by_cases h1 : k <:+: note <;>
    by_cases h2 : ∃ w ∈ tokens, k <:+: w ∨ w <:+: k
  all_goals simp only [h1, h2, (any_partial_iff tokens k).symm, if_true, if_false,
    ite_true, ite_false, iff_true, iff_false]
  all_goals first
    | (rw [if_pos ((any_partial_iff tokens k).mpr h2)]; push_cast; ring)
    | (rw [if_neg (fun hh => h2 ((any_partial_iff tokens k).mp hh))]; push_cast; ring)

theorem sum_map_half (l : List String) (g : String → ℕ) :
    (l.map (fun k => (g k : ℚ) / 2)).sum = ((l.map g).sum : ℚ) / 2 := by
  induction l with
  | nil => simp
  | cons a l ih =>
    simp only [List.map_cons, List.sum_cons, ih]
    push_cast
    ring

theorem map_congr_fn {α β : Type} {l : List α} {f g : α → β} (h : ∀ x ∈ l, f x = g x) :
    l.map f = l.map g := by
  induction l with
  | nil => rfl
  | cons a l ih => simp [h a (by simp), ih fun x hx => h x (List.mem_cons_of_mem a hx)]

/-- **C3**: `_calculate_category_score` returns 0 when the category name is
absent from the Keyword Table or the cleaned text has zero whitespace-split
tokens; otherwise it equals the accumulator — each keyword contributing 1.0
for a substring hit plus at most one 0.5 for a token partial hit — divided by
`max(token_count, 1)`. -/
theorem score_matches_spec (cleanedText : List Char) (categoryName : String) :
    ((∀ p ∈ categoryKeywords, p.1 ≠ categoryName) →
        calculateCategoryScore cleanedText categoryName = 0) ∧
    (words cleanedText = [] → calculateCategoryScore cleanedText categoryName = 0) ∧
    (∀ entry, categoryKeywords.find? (fun p => p.1 == categoryName) = some entry →
      words cleanedText ≠ [] →
      calculateCategoryScore cleanedText categoryName =
        ((entry.2.map (fun k =>
            specKeywordPoints cleanedText (words cleanedText) k.data)).sum)
          / ((max (words cleanedText).length 1 : ℕ) : ℚ)) := by
  refine ⟨?_, ?_, ?_⟩
  · intro h
    have hfind : categoryKeywords.find? (fun p => p.1 == categoryName) = none := by
      rw [List.find?_eq_none]
      intro p hp
      simp [h p hp]
    unfold calculateCategoryScore
    rw [hfind]
  · intro h
    unfold calculateCategoryScore
    cases hfind : categoryKeywords.find? (fun p => p.1 == categoryName) with
    | none => rfl
    | some entry => simp [h]
  · intro entry hfind hne
    have hlen : ¬((words cleanedText).length = 0) := by
      simpa [List.length_eq_zero] using hne
    unfold calculateCategoryScore
    simp only [hfind]
    rw [if_neg hlen, foldl_score_eq, zero_add,
      show (entry.2.map (fun k => specKeywordPoints cleanedText (words cleanedText) k.data))
          = entry.2.map (fun k =>
              ((keywordHalfPoints cleanedText (words cleanedText) k.data : ℚ)) / 2) from
        map_congr_fn (fun k _ => specKeywordPoints_eq_half cleanedText (words cleanedText) k.data),
      sum_map_half entry.2 (fun k => keywordHalfPoints cleanedText (words cleanedText) k.data)]

theorem score_matches_spec_witness :
    calculateCategoryScore "lunch".data "Sports" = 0 ∧
      calculateCategoryScore "  ".data "Food" = 0 :=
  ⟨(score_matches_spec "lunch".data "Sports").1 (by decide),
   (score_matches_spec "  ".data "Food").2.1 (by decide)⟩

/-- **C5**: the Remote Classifier Adapter validates the raw returned text by
exact membership in the allowed names first, then by the first
case-insensitive match (returning the canonical allowed name), returns `none`
when the external call errors/times out or nothing matches, and every
successful return is a member of the allowed names. (As a total function the
embedded adapter has no raising path: the source's `except` converts every
external-call error into the `rawReply = none` case.) -/
theorem adapter_matches_spec (rawReply : Option String) (allowed : List String) :
    (rawReply = none → categorizeWithOpenai rawReply allowed = none) ∧
    (∀ raw, rawReply = some raw →
      ((pyStrip raw ∈ allowed → categorizeWithOpenai rawReply allowed = some (pyStrip raw)) ∧
       (pyStrip raw ∉ allowed →
         categorizeWithOpenai rawReply allowed
           = allowed.find? (fun cat => pyLower cat == pyLower (pyStrip raw))) ∧
       (∀ c, categorizeWithOpenai rawReply allowed = some c → c ∈ allowed))) := by
  constructor
  · rintro rfl
    rfl
  · rintro raw rfl
    refine ⟨?_, ?_, ?_⟩
    · intro hmem
      simp only [categorizeWithOpenai]
      rw [if_pos (by simpa using hmem)]
    · intro hmem
      simp only [categorizeWithOpenai]
      rw [if_neg (by simpa using hmem)]
      cases h : allowed.find? (fun cat => pyLower cat == pyLower (pyStrip raw)) <;> simp
    · intro c hc
      simp only [categorizeWithOpenai] at hc
      by_cases hmem : allowed.contains (pyStrip raw) = true
      · rw [if_pos hmem] at hc
        obtain rfl : pyStrip raw = c := by injection hc
        simpa using hmem
      · rw [if_neg hmem] at hc
        cases h : allowed.find? (fun cat => pyLower cat == pyLower (pyStrip raw)) with
        | none => rw [h] at hc; exact absurd hc (by simp)
        | some cat =>
          rw [h] at hc
          obtain rfl : cat = c := by injection hc
          exact List.mem_of_find?_eq_some h

theorem adapter_matches_spec_witness :
    categorizeWithOpenai (some " Food ") ["Food", "Other"] = some (pyStrip " Food ") ∧
      categorizeWithOpenai (some "FOOD") ["Food", "Other"]
        = ["Food", "Other"].find? (fun cat => pyLower cat == pyLower (pyStrip "FOOD")) ∧
      categorizeWithOpenai none ["Food", "Other"] = none :=
  ⟨((adapter_matches_spec (some " Food ") ["Food", "Other"]).2 " Food " rfl).1 (by decide),
   (((adapter_matches_spec (some "FOOD") ["Food", "Other"]).2 "FOOD" rfl).2).1 (by decide),
   (adapter_matches_spec none ["Food", "Other"]).1 rfl⟩

theorem dictOf_go {α : Type} (l acc : List (String × α))
    (hdisj : ∀ p ∈ acc, ∀ q ∈ l, p.1 ≠ q.1)
    (hnd : (l.map Prod.fst).Nodup) :
    List.foldl (fun acc kv =>
      if acc.any (fun p => p.1 == kv.1)
      then acc.map (fun p => if p.1 == kv.1 then (p.1, kv.2) else p)
      else acc ++ [kv]) acc l = acc ++ l := by
  induction l generalizing acc with
  | nil => simp
  | cons kv l ih =>
    rw [List.foldl_cons]
    have hnone : acc.any (fun p => p.1 == kv.1) = false := by
      rw [List.any_eq_false]
      intro p hp
      simp [hdisj p hp kv (by simp)]
    rw [hnone]
    simp only [Bool.false_eq_true, if_false]
    rw [ih (acc ++ [kv]) ?_ ?_]
    · simp
    · intro p hp q hq
      rcases List.mem_append.mp hp with hp' | hp'
      · exact hdisj p hp' q (List.mem_cons_of_mem kv hq)
      · simp only [List.mem_singleton] at hp'
        subst hp'
        simp only [List.map_cons, List.nodup_cons] at hnd
        intro hEq
        exact hnd.1 (hEq ▸ List.mem_map_of_mem Prod.fst hq)
    · simp only [List.map_cons, List.nodup_cons] at hnd
      exact hnd.2

/-- A Python dict comprehension over pairs with pairwise-distinct keys is the
pair list itself. -/
theorem dictOf_eq_self {α : Type} {l : List (String × α)}
    (hnd : (l.map Prod.fst).Nodup) : dictOf l = l := by
  unfold dictOf
  simpa using dictOf_go l [] (by simp) hnd

theorem dGet_eq_some_of_mem {α : Type} {l : List (String × α)}
    (hnd : (l.map Prod.fst).Nodup) {k : String} {v : α} (hmem : (k, v) ∈ l) :
    dGet l k = some v := by
  unfold dGet
  induction l with
  | nil => simp at hmem
  | cons p l ih =>
    simp only [List.map_cons, List.nodup_cons] at hnd
    rcases List.mem_cons.mp hmem with rfl | hmem'
    · rw [List.find?_cons_of_pos _ (by simp)]
      rfl
    · have hp1 : (p.1 == k) = false := by
        simp only [beq_eq_false_iff_ne, ne_eq]
        intro hEq
        exact hnd.1 (hEq ▸ List.mem_map_of_mem Prod.fst hmem')
      rw [List.find?_cons_of_neg _ (by simp [hp1])]
      exact ih hnd.2 hmem'

theorem dGet_eq_none {α : Type} {l : List (String × α)} {k : String}
    (h : ∀ p ∈ l, p.1 ≠ k) : dGet l k = none := by
  unfold dGet
  rw [List.find?_eq_none.mpr (by intro p hp; simp [h p hp])]
  rfl

/-- **C1 (amended)**: when the validated remote label is a *non-empty* name
present in the user's category set, `categorize_expense` returns that
category's identifier; the result does not depend on the note's text, which
formalizes that the lexical scorer is never consulted on this path. (The
non-emptiness proviso is forced by the `if openai_category and ...`
truthiness test, see the counterexample.) -/
theorem remote_success_short_circuit (note note' : List Char)
    (fetch2 : Except Unit (List (String × String))) (rawReply : Option String)
    (cats : List (String × String)) (name categoryId : String)
    (hnd : (cats.map Prod.fst).Nodup)
    (hne : cats ≠ [])
    (hcls : categorizeWithOpenai rawReply (cats.map Prod.fst) = some name)
    (hname : name ≠ "")
    (hmem : (name, categoryId) ∈ cats) :
    categorizeExpense note (.ok cats) fetch2 rawReply = some categoryId ∧
      categorizeExpense note (.ok cats) fetch2 rawReply
        = categorizeExpense note' (.ok cats) fetch2 rawReply := by
  have hany : cats.any (fun p => p.1 == name) = true := by
    rw [List.any_eq_true]
    exact ⟨(name, categoryId), hmem, by simp⟩
  have heval : ∀ n : List Char,
      categorizeExpense n (.ok cats) fetch2 rawReply = some categoryId := by
    intro n
    simp only [categorizeExpense]
    rw [if_neg hne, dictOf_eq_self hnd, hcls]
    show (if name ≠ "" ∧ (cats.any fun p => p.1 == name) = true then dGet cats name
        else categorizeWithKeywords n cats) = some categoryId
    rw [if_pos ⟨hname, hany⟩]
    exact dGet_eq_some_of_mem hnd hmem
  exact ⟨heval note, (heval note).trans (heval note').symm⟩

theorem remote_success_short_circuit_witness :
    categorizeExpense "x".data (.ok [("Food", "f1")]) (.error ()) (some "Food")
      = some "f1" :=
  (remote_success_short_circuit "x".data "y".data (.error ()) (some "Food")
    [("Food", "f1")] "Food" "f1" (by decide) (by decide) (by decide) (by decide)
    (by decide)).1

/-- **C1 counterexample**: a user category may carry the empty display name
(the create endpoint strips-and-titlecases `" "` to `""`). When the remote
classifier's validated reply is that empty name — which *is* present in the
user's set — the source's `if openai_category and ...` truthiness test
rejects it, the keyword fallback runs, and the resolver returns `none`
instead of that category's identifier. -/
theorem remote_success_short_circuit_counterexample :
    categorizeWithOpenai (some "") [""] = some "" ∧
      ("", "cid") ∈ [("", "cid")] ∧
      categorizeExpense "x".data (.ok [("", "cid")]) (.error ()) (some "") = none := by
  refine ⟨rfl, by simp, ?_⟩
  decide

theorem maxBySnd_go_spec (xs : List (String × ℚ)) :
    ∀ b : String × ℚ,
      ∃ pre post,
        b :: xs = pre ++ (xs.foldl (fun b y => if b.2 < y.2 then y else b) b) :: post ∧
        (∀ y ∈ pre, y.2 < (xs.foldl (fun b y => if b.2 < y.2 then y else b) b).2) ∧
        (∀ y ∈ b :: xs, y.2 ≤ (xs.foldl (fun b y => if b.2 < y.2 then y else b) b).2) := by
  induction xs with
  | nil =>
    intro b
    exact ⟨[], [], rfl, by simp, by simp⟩
  | cons y ys ih =>
    intro b
    rw [List.foldl_cons]
    by_cases hlt : b.2 < y.2
    · rw [if_pos hlt]
      obtain ⟨pre', post', hsplit, hpre, hall⟩ := ih y
      refine ⟨b :: pre', post', by rw [List.cons_append, ← hsplit], ?_, ?_⟩
      · intro z hz
        rcases List.mem_cons.mp hz with rfl | hz'
        · exact lt_of_lt_of_le hlt (hall y (by simp))
        · exact hpre z hz'
      · intro z hz
        rcases List.mem_cons.mp hz with rfl | hz'
        · exact le_of_lt (lt_of_lt_of_le hlt (hall y (by simp)))
        · exact hall z hz'
    · rw [if_neg hlt]
      obtain ⟨pre', post', hsplit, hpre, hall⟩ := ih b
      cases pre' with
      | nil =>
        simp only [List.nil_append] at hsplit
        injection hsplit with h1 h2
        refine ⟨[], y :: ys, ?_, by simp, ?_⟩
        · rw [← h1, List.nil_append]
        · intro z hz
          rw [← h1]
          rcases List.mem_cons.mp hz with rfl | hz'
          · exact le_refl _
          · rcases List.mem_cons.mp hz' with rfl | hz''
            · exact le_of_not_lt hlt
            · have := hall z (List.mem_cons_of_mem b hz'')
              rwa [← h1] at this
      | cons p pre'' =>
        rw [List.cons_append] at hsplit
        injection hsplit with h1 h2
        subst h1
        refine ⟨b :: y :: pre'', post', ?_, ?_, ?_⟩
        · conv_lhs => rw [h2]
          simp
        · intro z hz
          rcases List.mem_cons.mp hz with rfl | hz'
          · exact hpre z (by simp)
          · rcases List.mem_cons.mp hz' with rfl | hz''
            · exact lt_of_le_of_lt (le_of_not_lt hlt) (hpre b (by simp))
            · exact hpre z (List.mem_cons_of_mem b hz'')
        · intro z hz
          rcases List.mem_cons.mp hz with rfl | hz'
          · exact hall z (by simp)
          · rcases List.mem_cons.mp hz' with rfl | hz''
            · exact le_trans (le_of_not_lt hlt) (hall b (by simp))
            · exact hall z (List.mem_cons_of_mem b hz'')

theorem maxBySnd_spec {l : List (String × ℚ)} (h : l ≠ []) :
    ∃ pre b post, maxBySnd l = some b ∧ l = pre ++ b :: post ∧
      (∀ y ∈ pre, y.2 < b.2) ∧ (∀ y ∈ l, y.2 ≤ b.2) := by
  cases l with
  | nil => simp at h
  | cons x xs =>
    obtain ⟨pre, post, hsplit, hpre, hall⟩ := maxBySnd_go_spec xs x
    exact ⟨pre, _, post, rfl, hsplit, hpre, fun y hy => hall y hy⟩

theorem posScores_keys_sublist (cn : List Char) (cats : List (String × String)) :
    ((cats.filterMap (fun p =>
        let s := calculateCategoryScore cn p.1
        if 0 < s then some (p.2, s) else none)).map Prod.fst).Sublist
      (cats.map Prod.snd) := by
  induction cats with
  | nil => simp
  | cons p l ih =>
    rw [List.filterMap_cons]
    by_cases hp : 0 < calculateCategoryScore cn p.1
    · simp only [hp, if_true, ite_true]
      exact List.Sublist.cons₂ _ ih
    · simp only [hp, if_false, ite_false]
      exact List.Sublist.cons _ ih

/-- **C2**: with an empty category set the resolver returns `none`
immediately; when the remote classifier path yields nothing, the resolver
returns the keyword fallback, and that fallback returns the id of the
highest-scoring positively-scored owned category — ties resolved in favor of
the first-encountered category in the user's listing order — and when no
category scores positively it returns the id of the user's `"Other"` category
if present, else `none`. -/
theorem empty_and_keyword_fallback_spec (note : List Char)
    (fetch2 : Except Unit (List (String × String))) (rawReply : Option String)
    (cats : List (String × String))
    (hndn : (cats.map Prod.fst).Nodup) (hndi : (cats.map Prod.snd).Nodup) :
    (categorizeExpense note (.ok []) fetch2 rawReply = none) ∧
    (categorizeWithOpenai rawReply (cats.map Prod.fst) = none → cats ≠ [] →
      categorizeExpense note (.ok cats) fetch2 rawReply
        = categorizeWithKeywords note cats) ∧
    (∀ pos, pos = cats.filterMap (fun p =>
        let s := calculateCategoryScore (cleanList note) p.1
        if 0 < s then some (p.2, s) else none) →
      (pos ≠ [] → ∃ pre b post, pos = pre ++ b :: post ∧
          (∀ y ∈ pre, y.2 < b.2) ∧ (∀ y ∈ pos, y.2 ≤ b.2) ∧
          categorizeWithKeywords note cats = some b.1) ∧
      (pos = [] →
        categorizeWithKeywords note cats = dGet cats "Other" ∧
        (∀ otherId, ("Other", otherId) ∈ cats →
          categorizeWithKeywords note cats = some otherId) ∧
        ((∀ p ∈ cats, p.1 ≠ "Other") → categorizeWithKeywords note cats = none))) := by
  have hposnd : ∀ pos, pos = cats.filterMap (fun p =>
      let s := calculateCategoryScore (cleanList note) p.1
      if 0 < s then some (p.2, s) else none) → (pos.map Prod.fst).Nodup := by
    intro pos hpos
    rw [hpos]
    exact (posScores_keys_sublist (cleanList note) cats).nodup hndi
  refine ⟨by simp [categorizeExpense], ?_, ?_⟩
  · intro hfail hne
    simp only [categorizeExpense]
    rw [if_neg hne, dictOf_eq_self hndn, hfail]
  · intro pos hpos
    have hkw : categorizeWithKeywords note cats =
        match maxBySnd pos with
        | some best => some best.1
        | none => dGet cats "Other" := by
      simp only [categorizeWithKeywords]
      rw [← hpos, dictOf_eq_self (hposnd pos hpos)]
    constructor
    · intro hne
      obtain ⟨pre, b, post, hmax, hsplit, hpre, hall⟩ := maxBySnd_spec hne
      refine ⟨pre, b, post, hsplit, hpre, hall, ?_⟩
      rw [hkw, hmax]
    · intro hnil
      subst hnil
      have hres : categorizeWithKeywords note cats = dGet cats "Other" := by
        rw [hkw]
        rfl
      refine ⟨hres, ?_, ?_⟩
      · intro otherId hmem
        rw [hres]
        exact dGet_eq_some_of_mem hndn hmem
      · intro hno
        rw [hres]
        exact dGet_eq_none hno

theorem empty_and_keyword_fallback_spec_witness :
    categorizeExpense "x".data (.ok []) (.error ()) none = none ∧
      categorizeExpense "uber ride".data
          (.ok [("Food", "f1"), ("Transport", "t1"), ("Other", "o1")]) (.error ()) none
        = categorizeWithKeywords "uber ride".data
            [("Food", "f1"), ("Transport", "t1"), ("Other", "o1")] ∧
      categorizeWithKeywords "qqq".data [("Other", "o1")] = some "o1" :=
  ⟨(empty_and_keyword_fallback_spec "x".data (.error ()) none [] (by decide)
      (by decide)).1,
   (empty_and_keyword_fallback_spec "uber ride".data (.error ()) none
      [("Food", "f1"), ("Transport", "t1"), ("Other", "o1")] (by decide)
      (by decide)).2.1 rfl (by decide),
   (((empty_and_keyword_fallback_spec "qqq".data (.error ()) none [("Other", "o1")]
      (by decide) (by decide)).2.2 _ rfl).2 (by decide)).2.1 "o1" (by decide)⟩

/-- **C4**: the resolver's top-level error handler: when the first store
fetch raises, the whole sequence is retried exactly once using only the
lexical path — the result is independent of the remote classifier's reply —
an empty or failing retry returns `none`, and a successful non-empty retry
returns the keyword fallback. (The embedded resolver is a total function:
every failure mode of the source — the two store calls and the remote call —
is an oracle value, and each is handled, so the resolver never raises.) -/
theorem resolver_retry_spec (note : List Char)
    (fetch2 : Except Unit (List (String × String))) (rawReply rawReply' : Option String) :
    (categorizeExpense note (.error ()) fetch2 rawReply
      = categorizeExpense note (.error ()) fetch2 rawReply') ∧
    (fetch2 = .error () → categorizeExpense note (.error ()) fetch2 rawReply = none) ∧
    (∀ cats, fetch2 = .ok cats → cats = [] →
      categorizeExpense note (.error ()) fetch2 rawReply = none) ∧
    (∀ cats, fetch2 = .ok cats → cats ≠ [] →
      categorizeExpense note (.error ()) fetch2 rawReply
        = categorizeWithKeywords note (dictOf cats)) := by
  refine ⟨rfl, ?_, ?_, ?_⟩
  · rintro rfl
    rfl
  · rintro cats rfl rfl
    rfl
  · rintro cats rfl hne
    simp only [categorizeExpense]
    rw [if_neg hne]

theorem resolver_retry_spec_witness :
    categorizeExpense "lunch".data (.error ()) (.error ()) (some "Food") = none ∧
      categorizeExpense "lunch".data (.error ()) (.ok []) (some "Food") = none ∧
      categorizeExpense "qqq".data (.error ()) (.ok [("Other", "o1")]) (some "Food")
        = categorizeWithKeywords "qqq".data (dictOf [("Other", "o1")]) :=
  ⟨(resolver_retry_spec "lunch".data (.error ()) (some "Food") none).2.1 rfl,
   (resolver_retry_spec "lunch".data (.ok []) (some "Food") none).2.2.1 [] rfl rfl,
   (resolver_retry_spec "qqq".data (.ok [("Other", "o1")]) (some "Food") none).2.2.2
     [("Other", "o1")] rfl (by decide)⟩

/-- **C8**: when the create request carries no truthy explicit category, the
endpoint consults the resolver; a truthy resolver id is used directly, and on
`none` the endpoint falls back to the user's literal `"Other"` category id
before persisting — so the expense is created whenever the `"Other"` category
exists and is owned and the store accepts the insert; if no `"Other"`
category exists either, the request is rejected. -/
theorem create_expense_other_fallback
    (resolverResult otherLookup : Option String) (owned : List String) :
    (∀ otherId, resolverResult = none → otherLookup = some otherId →
      owned.contains otherId = true →
      createExpense none resolverResult otherLookup owned true = .created otherId) ∧
    (∀ cid, resolverResult = some cid → cid ≠ "" → owned.contains cid = true →
      createExpense none resolverResult otherLookup owned true = .created cid) ∧
    (resolverResult = none → otherLookup = none →
      createExpense none resolverResult otherLookup owned true = .noSuitableCategory) := by
  refine ⟨?_, ?_, ?_⟩
  · rintro otherId rfl rfl howned
    have hmem : otherId ∈ owned := by simpa using howned
    simp [createExpense, optTruthy, hmem]
  · rintro cid rfl hcid howned
    have hmem : cid ∈ owned := by simpa using howned
    simp [createExpense, optTruthy, hcid, hmem]
  · rintro rfl rfl
    simp [createExpense, optTruthy]

theorem create_expense_other_fallback_witness :
    createExpense none none (some "o1") ["f1", "o1"] true = .created "o1" ∧
      createExpense none (some "t1") (some "o1") ["t1", "o1"] true = .created "t1" ∧
      createExpense none none none ["f1"] true = .noSuitableCategory :=
  ⟨(create_expense_other_fallback none (some "o1") ["f1", "o1"]).1 "o1" rfl rfl (by decide),
   (create_expense_other_fallback (some "t1") (some "o1") ["t1", "o1"]).2.1 "t1" rfl
     (by decide) (by decide),
   (create_expense_other_fallback none none ["f1"]).2.2 rfl rfl⟩

/-- **C10**: an update request that changes the note without an explicit
`category_id` re-runs resolution; when resolution yields nothing truthy the
built update leaves `category_id` out entirely, so the stored expense keeps
its previous category while the other supplied fields are still applied. -/
theorem update_note_keeps_category (p : ExpenseUpdatePayload)
    (resolverResult : Option String) (owned : List String) (e : ExpenseRecord)
    (n : String)
    (hnote : p.note = some n) (hcat : p.categoryId = none)
    (hres : optTruthy resolverResult = false) :
    buildUpdateData p resolverResult owned = .ok ⟨p.amount, some n, p.date, none⟩ ∧
      (applyUpdateData e ⟨p.amount, some n, p.date, none⟩).categoryId = e.categoryId ∧
      (applyUpdateData e ⟨p.amount, some n, p.date, none⟩).note = n ∧
      (applyUpdateData e ⟨p.amount, some n, p.date, none⟩).amount = p.amount.getD e.amount ∧
      (applyUpdateData e ⟨p.amount, some n, p.date, none⟩).date = p.date.getD e.date := by
  refine ⟨?_, by simp [applyUpdateData], by simp [applyUpdateData],
    by simp [applyUpdateData], by simp [applyUpdateData]⟩
  cases hA : p.amount <;> cases hD : p.date <;>
    simp [buildUpdateData, hnote, hcat, hres, hA, hD]

theorem update_note_keeps_category_witness :
    buildUpdateData ⟨some 5, some "coffee", none, none⟩ none []
        = .ok ⟨some 5, some "coffee", none, none⟩ ∧
      (applyUpdateData ⟨1, "old", "2024-01-01", "c1"⟩
        ⟨some 5, some "coffee", none, none⟩).categoryId = "c1" ∧
      (applyUpdateData ⟨1, "old", "2024-01-01", "c1"⟩
        ⟨some 5, some "coffee", none, none⟩).note = "coffee" ∧
      (applyUpdateData ⟨1, "old", "2024-01-01", "c1"⟩
        ⟨some 5, some "coffee", none, none⟩).amount = (some (5:ℚ)).getD 1 ∧
      (applyUpdateData ⟨1, "old", "2024-01-01", "c1"⟩
        ⟨some 5, some "coffee", none, none⟩).date
        = (none : Option String).getD "2024-01-01" :=
  update_note_keeps_category ⟨some 5, some "coffee", none, none⟩ none []
    ⟨1, "old", "2024-01-01", "c1"⟩ "coffee" rfl rfl rfl

theorem filter_orderedInsert (x : String × ℚ) (m : List (String × ℚ)) (q : ℚ) :
    ((m.orderedInsert (fun a b => b.2 ≤ a.2) x).filter (fun p => p.2 == q))
      = ((x :: m).filter (fun p => p.2 == q)) := by
  induction m with
  | nil => rfl
  | cons b m ih =>
    rw [List.orderedInsert]
    by_cases hr : b.2 ≤ x.2
    · rw [if_pos hr]
    · rw [if_neg hr]
      by_cases hxq : (x.2 == q) = true <;> by_cases hbq : (b.2 == q) = true
      · exact absurd (le_of_eq (by rw [eq_of_beq hbq, ← eq_of_beq hxq])) hr
      all_goals simp [List.filter_cons, hxq, hbq, ih]

/-- Python's `sorted(..., reverse=True)` is stable: for every score value,
the sorted list's subsequence at that value is the input's subsequence. -/
theorem insertionSort_filter (l : List (String × ℚ)) (q : ℚ) :
    ((l.insertionSort (fun a b => b.2 ≤ a.2)).filter (fun p => p.2 == q))
      = l.filter (fun p => p.2 == q) := by
  induction l with
  | nil => rfl
  | cons x l ih =>
    rw [List.insertionSort, filter_orderedInsert, List.filter_cons, List.filter_cons, ih]

theorem score_pos_iff (note : List Char) (name : String)
    (h : (words note).length ≠ 0) :
    0 < calculateCategoryScore note name ↔ 0 < categoryHalfPoints note name := by
  rw [calculateCategoryScore_eq_halfPoints note name h]
  have hb : (0:ℚ) < ((2 * max (words note).length 1 : ℕ) : ℚ) := by
    have : 0 < 2 * max (words note).length 1 := by positivity
    exact_mod_cast this
  rw [div_pos_iff]
  constructor
  · rintro (⟨ha, _⟩ | ⟨_, hb'⟩)
    · exact_mod_cast ha
    · exact absurd hb (not_lt.mpr (le_of_lt hb'))
  · intro ha
    exact Or.inl ⟨by exact_mod_cast ha, hb⟩

/-- **C7**: `get_category_suggestions` scores every Keyword-Table category
against the normalized note and keeps the positive ones in table insertion
order; the Python `sorted(..., reverse=True)` is formalized by the stable
insertion sort, proved sorted descending by score and stable (for every score
value the subsequence at that value equals the positives' subsequence); at
most the top 3 survive; each reported confidence is `round(score*100, 1)`. -/
theorem suggestions_match_spec (noteRaw : List Char) :
    (getCategorySuggestions noteRaw).length ≤ 3 ∧
    getCategorySuggestions noteRaw
      = (((positiveScores (cleanList noteRaw)).insertionSort
            (fun a b => b.2 ≤ a.2)).take 3).map (fun p => (p.1, pyRound1 (100 * p.2))) ∧
    positiveScores (cleanList noteRaw)
      = categoryKeywords.filterMap (fun p =>
          let s := calculateCategoryScore (cleanList noteRaw) p.1
          if 0 < s then some (p.1, s) else none) ∧
    ((positiveScores (cleanList noteRaw)).insertionSort
        (fun a b => b.2 ≤ a.2)).Sorted (fun a b => b.2 ≤ a.2) ∧
    (∀ q : ℚ, (((positiveScores (cleanList noteRaw)).insertionSort
          (fun a b => b.2 ≤ a.2)).filter (fun p => p.2 == q))
        = (positiveScores (cleanList noteRaw)).filter (fun p => p.2 == q)) ∧
    (∀ p ∈ positiveScores (cleanList noteRaw),
      p.2 = calculateCategoryScore (cleanList noteRaw) p.1 ∧ 0 < p.2) := by
  haveI hTot : IsTotal (String × ℚ) (fun a b => b.2 ≤ a.2) := ⟨fun a b => le_total b.2 a.2⟩
  haveI hTr : IsTrans (String × ℚ) (fun a b => b.2 ≤ a.2) :=
    ⟨fun _ _ _ hab hbc => le_trans hbc hab⟩
  refine ⟨?_, rfl, rfl, List.sorted_insertionSort _ _,
    fun q => insertionSort_filter _ q, ?_⟩
  · simp only [getCategorySuggestions, List.length_map, List.length_take]
    omega
  · intro p hp
    obtain ⟨a, _, hfa⟩ := List.mem_filterMap.mp hp
    by_cases hpos : 0 < calculateCategoryScore (cleanList noteRaw) a.1
    · have : some (a.1, calculateCategoryScore (cleanList noteRaw) a.1) = some p := by
        rw [← hfa]
        show _ = (if 0 < calculateCategoryScore (cleanList noteRaw) a.1
          then some (a.1, calculateCategoryScore (cleanList noteRaw) a.1) else none)
        rw [if_pos hpos]
      obtain rfl : (a.1, calculateCategoryScore (cleanList noteRaw) a.1) = p := by
        injection this
      exact ⟨rfl, hpos⟩
    · exfalso
      have : (none : Option (String × ℚ)) = some p := by
        rw [← hfa]
        show _ = (if 0 < calculateCategoryScore (cleanList noteRaw) a.1
          then some (a.1, calculateCategoryScore (cleanList noteRaw) a.1) else none)
        rw [if_neg hpos]
      exact Option.noConfusion this

theorem suggestions_match_spec_witness :
    (getCategorySuggestions "coffee".data).length ≤ 3 ∧
      (0:ℚ) < calculateCategoryScore (cleanList "coffee".data) "Food" := by
  refine ⟨(suggestions_match_spec "coffee".data).1, ?_⟩
  obtain ⟨entry, hfind⟩ : ∃ e,
      categoryKeywords.find? (fun p => p.1 == "Food") = some e := ⟨_, rfl⟩
  have hmemE : entry ∈ categoryKeywords := List.mem_of_find?_eq_some hfind
  have hname : entry.1 = "Food" := by
    have := List.find?_some hfind
    simpa using this
  have hpos : 0 < calculateCategoryScore (cleanList "coffee".data) entry.1 := by
    rw [hname]
    exact (score_pos_iff _ _ (by decide)).mpr (by decide)
  have hmem : (entry.1, calculateCategoryScore (cleanList "coffee".data) entry.1)
      ∈ positiveScores (cleanList "coffee".data) := by
    apply List.mem_filterMap.mpr
    refine ⟨entry, hmemE, ?_⟩
    show (if 0 < calculateCategoryScore (cleanList "coffee".data) entry.1
      then some (entry.1, calculateCategoryScore (cleanList "coffee".data) entry.1)
      else none) = _
    rw [if_pos hpos]
  have hfact := ((suggestions_match_spec "coffee".data).2.2.2.2.2 _ hmem).2
  simpa [hname] using hfact
